import Mathlib

/-!
# uvm: the manifest edits of `get`, `install` and `uninstall`

A shallow embedding of `src/uvm.c`.  A C string is the list of its characters before
the terminating NUL, one `Char` for each byte; a pointer into a string is an offset into
that list and `NULL` is `none`.  The `while` loops take a fuel argument and return `none`
when it runs out; started with one more than the length of the text left to scan they
always finish (`scan_entries_total`, `handle_uninstall_edit_total`, `install_loop_count`).
The file system is a record of the package file, `.gitattributes` and the paths that
exist; `git clone` is a parameter telling whether the clone succeeds.
-/

namespace Uvm

/-! ## Constants of `uvm.c` -/

/-- The package file's dependency header, the literal searched by every handler. -/
def deps_header : List Char := "\"dependencies\": [".toList

/-- MODS_DIR, the modules root. -/
def MODS_DIR : List Char := "umods".toList

/-- GH_ORG_URL, the fixed remote. -/
def GH_ORG_URL : List Char := "https://github.com/unnarize".toList

/-- The `package_content` literal that `handle_init` writes to a fresh package file. -/
def package_content : List Char :=
  "\x7b\n  \"name\": \"my-unnarize-project\",\n  \"dependencies\": []\n\x7d\n".toList

/-- `strstr(hay, needle)`: offset of the first occurrence of `needle`, `none` for NULL. -/
def strstr : List Char → List Char → Option Nat
  | [], needle => if needle.isPrefixOf [] then some 0 else none
  | c :: hay, needle =>
    if needle.isPrefixOf (c :: hay) then some 0 else (strstr hay needle).map (· + 1)

/-- `strchr(s, c)` for a character `c` other than NUL: offset of its first occurrence. -/
def strchr : List Char → Char → Option Nat
  | [], _ => none
  | x :: xs, c => if x = c then some 0 else (strchr xs c).map (· + 1)

/-- `strrchr(s, c)` for a character `c` other than NUL: offset of its last occurrence. -/
def strrchr : List Char → Char → Option Nat
  | [], _ => none
  | x :: xs, c =>
    match strrchr xs c with
    | some i => some (i + 1)
    | none => if x = c then some 0 else none

/-- `snprintf(buf, size, ...)` keeps at most `size - 1` characters of the formatted text. -/
def snprintf (size : Nat) (formatted : List Char) : List Char :=
  formatted.take (size - 1)

/-! ## The manifest edit of `handle_get` (lines 119-149) -/

/-- What `handle_get` does with the text it read: the message it prints and, when it
rewrites the file, the text it writes. -/
inductive GetEdit where
  | already_dependency
  | invalid_format
  | written (new_json_content : List Char)
deriving DecidableEq, Repr

/-- The entry text formatted by the two `snprintf` calls of `handle_get`. -/
def get_entry_text ( is_empty : Bool) (repo_name : List Char) : List Char :=
  if is_empty then "\n    \"".toList ++ repo_name ++ "\"\n  ".toList
  else ",\n    \"".toList ++ repo_name ++ "\"\n  ".toList

/-- Lines 119-149 of `handle_get`, from the `strstr` test to the finished
`new_json_content`. -/
def handle_get_edit (json_content repo_name : List Char) : GetEdit :=
  match strstr json_content repo_name with
  | some _ => .already_dependency
  | none =>
    match strstr json_content deps_header with
    | none => .invalid_format
    | some deps_start =>
      match strrchr (json_content.drop deps_start) ']' with
      | none => .invalid_format
      | some r =>
        let insert_pos := deps_start + r
        let check_empty := (strchr (json_content.drop deps_start) '[').map (deps_start + ·)
        let is_empty :=
          match check_empty with
          | some c => insert_pos == c + 1 || insert_pos == c + 2
          | none => false
        let new_size := json_content.length + repo_name.length + 16
        let copied := json_content.take insert_pos
        let entry := snprintf (new_size - copied.length) (get_entry_text is_empty repo_name)
        .written (copied ++ entry ++ json_content.drop insert_pos)

/-! ## The scanning loop of `handle_install` and `handle_uninstall` -/

/-- The names the scanning loop (lines 181-195 and 255-274) copies into `repo_buffer`,
in order.  `fuel` bounds the number of iterations; `none` means it ran out. -/
def scan_entries : Nat → List Char → Option (List (List Char))
  | 0, _ => none
  | _ + 1, [] => some []
  | fuel + 1, c :: rest =>
    if c = ']' then some []
    else if c = '"' then
      match strchr rest '"' with
      | some len =>
        if len < 127 then
          (scan_entries fuel (rest.drop (len + 1))).map (rest.take len :: ·)
        else scan_entries fuel (rest.drop (len + 1))
      | none => some []
    else scan_entries fuel rest

/-- The dependency names of a manifest text as the program reads them: the header is
located with `strstr` and the scanning loop runs from the character after it. -/
def list_deps (json_content : List Char) : Option (List (List Char)) :=
  match strstr json_content deps_header with
  | none => none
  | some deps_start =>
    let current := json_content.drop (deps_start + deps_header.length)
    scan_entries (current.length + 1) current

/-! ## The manifest edit of `handle_uninstall` (lines 230-284) -/

/-- What `handle_uninstall` does with the text it read. -/
inductive UninstallEdit where
  | not_listed
  | null_deps_start
  | overflow (built : List Char)
  | written (new_json_content : List Char)
deriving DecidableEq, Repr

/-- The loop of lines 255-274: the state is the text written so far through `writer`
and `is_first_entry`. -/
def uninstall_loop (repo_name : List Char) :
    Nat → List Char → List Char → Bool → Option (List Char × Bool)
  | 0, _, _, _ => none
  | _ + 1, [], writer, is_first_entry => some (writer, is_first_entry)
  | fuel + 1, c :: rest, writer, is_first_entry =>
    if c = ']' then some (writer, is_first_entry)
    else if c = '"' then
      match strchr rest '"' with
      | some len =>
        if len < 127 then
          let repo_buffer := rest.take len
          if repo_name ≠ repo_buffer then
            let writer := if is_first_entry then writer else writer ++ [',']
            uninstall_loop repo_name fuel (rest.drop (len + 1))
              (writer ++ "\n    \"".toList ++ repo_buffer ++ ['"']) false
          else uninstall_loop repo_name fuel (rest.drop (len + 1)) writer is_first_entry
        else uninstall_loop repo_name fuel (rest.drop (len + 1)) writer is_first_entry
      | none => some (writer, is_first_entry)
    else uninstall_loop repo_name fuel rest writer is_first_entry

/-- Lines 276-284: the closing text appended after the loop. -/
def uninstall_close (writer : List Char) ( is_first_entry : Bool) : List Char :=
  (if is_first_entry then writer else writer ++ "\n  ".toList) ++ "]\n\x7d\n".toList

/-- The text `handle_uninstall` builds in `new_json_content` once the header was found at
`deps_start`. -/
def uninstall_rewrite (json_content repo_name : List Char) (deps_start : Nat) :
    Option (List Char) :=
  let current := json_content.drop (deps_start + deps_header.length)
  (uninstall_loop repo_name (current.length + 1) current
      (json_content.take deps_start ++ deps_header) true).map
    fun st => uninstall_close st.1 st.2

/-- Lines 230-284 of `handle_uninstall`.  `null_deps_start` is the unchecked NULL from
`strstr`; `overflow` is a text longer than the `strlen(json_content) + 1` bytes allocated
for it (terminator included).  The outer `none` is the loop running out of fuel. -/
def handle_uninstall_edit (json_content repo_name : List Char) : Option UninstallEdit :=
  let search_str := snprintf 256 (['"'] ++ repo_name ++ ['"'])
  match strstr json_content search_str with
  | none => some .not_listed
  | some _ =>
    match strstr json_content deps_header with
    | none => some .null_deps_start
    | some deps_start =>
      (uninstall_rewrite json_content repo_name deps_start).map fun built =>
        if built.length + 1 ≤ json_content.length + 1 then .written built else .overflow built

/-! ## The file system and the fetcher -/

/-- The part of the file system the program touches: the package file (`none` when it
does not exist), `.gitattributes`, and the paths for which `stat` succeeds. -/
structure World where
  manifest : Option (List Char)
  gitattributes : Option (List Char)
  dirs : List (List Char)
deriving DecidableEq, Repr

/-- How one call of `fetch_and_clean_repo` ended: the directory was already there, the
clone and cleanup ran, or `git clone` returned non-zero. -/
inductive FetchState where
  | AlreadyLocal
  | Installed
  | FetchFailed
deriving DecidableEq, Repr

/-- The function `fetch_and_clean_repo` (lines 333-376).  `clone_ok repo_url dest_path`
tells whether `git clone` exits with status 0; a successful clone creates `dest_path`,
a failed one is taken to leave nothing behind. -/
def fetch_and_clean_repo (clone_ok : List Char → List Char → Bool) (repo_name : List Char)
    (dirs : List (List Char)) : FetchState × List (List Char) :=
  let dest_path := snprintf 256 (MODS_DIR ++ ['/'] ++ repo_name)
  if dest_path ∈ dirs then (.AlreadyLocal, dirs)
  else
    let dirs := if MODS_DIR ∈ dirs then dirs else MODS_DIR :: dirs
    let repo_url := snprintf 256 (GH_ORG_URL ++ ['/'] ++ repo_name ++ ".git".toList)
    if clone_ok repo_url dest_path then (.Installed, dest_path :: dirs)
    else (.FetchFailed, dirs)

/-! ## The handlers -/

/-- What `handle_get` reports. -/
inductive GetReport where
  | no_manifest
  | done (fetch : FetchState) (edit : GetEdit)
deriving DecidableEq, Repr

/-- The function `handle_get` (lines 105-159); reading an existing package file and
writing it are taken to succeed. -/
def handle_get (clone_ok : List Char → List Char → Bool) (repo_name : List Char)
    (w : World) : World × GetReport :=
  match w.manifest with
  | none => (w, .no_manifest)
  | some json_content =>
    let fetched := fetch_and_clean_repo clone_ok repo_name w.dirs
    let edit := handle_get_edit json_content repo_name
    match edit with
    | .written new_json_content =>
      ({ w with manifest := some new_json_content, dirs := fetched.2 }, .done fetched.1 edit)
    | _ => ({ w with dirs := fetched.2 }, .done fetched.1 edit)

/-- The loop of `handle_install` (lines 181-195): the state is the directories present
and `installed_count`; the list of fetch results is recorded alongside for reference. -/
def install_loop (clone_ok : List Char → List Char → Bool) :
    Nat → List Char → List (List Char) → Nat → List FetchState →
    Option (List (List Char) × Nat × List FetchState)
  | 0, _, _, _, _ => none
  | _ + 1, [], dirs, installed_count, fetched => some (dirs, installed_count, fetched)
  | fuel + 1, c :: rest, dirs, installed_count, fetched =>
    if c = ']' then some (dirs, installed_count, fetched)
    else if c = '"' then
      match strchr rest '"' with
      | some len =>
        if len < 127 then
          let repo_buffer := rest.take len
          let r := fetch_and_clean_repo clone_ok repo_buffer dirs
          install_loop clone_ok fuel (rest.drop (len + 1)) r.2 (installed_count + 1)
            (fetched ++ [r.1])
        else install_loop clone_ok fuel (rest.drop (len + 1)) dirs installed_count fetched
      | none => some (dirs, installed_count, fetched)
    else install_loop clone_ok fuel rest dirs installed_count fetched

/-- What `handle_install` reports: `complete` carries the count printed in
"Installed %d package(s)" and the result of each fetch, in order. -/
inductive InstallReport where
  | no_manifest
  | invalid_format
  | out_of_fuel
  | complete (installed_count : Nat) (fetched : List FetchState)
deriving DecidableEq, Repr

/-- The function `handle_install` (lines 164-199). -/
def handle_install (clone_ok : List Char → List Char → Bool) (w : World) :
    World × InstallReport :=
  match w.manifest with
  | none => (w, .no_manifest)
  | some json_content =>
    match strstr json_content deps_header with
    | none => (w, .invalid_format)
    | some deps_start =>
      let current := json_content.drop (deps_start + deps_header.length)
      match install_loop clone_ok (current.length + 1) current w.dirs 0 [] with
      | none => (w, .out_of_fuel)
      | some (dirs, installed_count, fetched) =>
        ({ w with dirs := dirs }, .complete installed_count fetched)

/-- One entry as `handle_uninstall` formats it with `"\n    \"%s\""`. -/
def entry_line (e : List Char) : List Char :=
  "\n    \"".toList ++ e ++ ['"']

/-- The entries as the loop of `handle_uninstall` writes them: a comma before every entry
but the first. -/
def emit_entries : Bool → List (List Char) → List Char
  | _, [] => []
  | is_first_entry, e :: es =>
    (if is_first_entry then [] else [',']) ++ entry_line e ++ emit_entries false es

/-- The text between the brackets of the array that `handle_uninstall` writes for the
names `es`; empty for no names, which is also what `handle_init` writes. -/
def array_body (es : List (List Char)) : List Char :=
  emit_entries true es ++ (if es.isEmpty then [] else "\n  ".toList)

/-- A package file in the program's own layout: any text `before`, the header, the
entries one per line, and the closing `]`, newline, closing brace, newline. -/
def own_layout (before : List Char) (es : List (List Char)) : List Char :=
  before ++ deps_header ++ array_body es ++ "]\n\x7d\n".toList

/-- A name the program can list and read back: no double quote in it and short enough
for `repo_buffer`. -/
def listable (e : List Char) : Prop :=
  '"' ∉ e ∧ e.length < 127

instance (e : List Char) : Decidable (listable e) := by
  unfold listable; exact inferInstance

/-- The entries found by the scanning loop when it is given enough fuel. -/
def entries_of (current : List Char) : List (List Char) :=
  (scan_entries (current.length + 1) current).getD []

/-! ## Facts about the string functions -/

theorem isPrefixOf_append_of_length_le (N A x : List Char) (h : N.length ≤ A.length) :
    N.isPrefixOf (A ++ x) = N.isPrefixOf A := by
  rw [Bool.eq_iff_iff, List.isPrefixOf_iff_prefix, List.isPrefixOf_iff_prefix]
  constructor
  · intro h1
    exact List.prefix_of_prefix_length_le h1 (List.prefix_append A x) h
  · intro h1
    exact h1.trans (List.prefix_append A x)

theorem strstr_zero (hay N : List Char) (h : N.isPrefixOf hay = true) :
    strstr hay N = some 0 := by
  cases hay <;> simp [strstr, h]

theorem strstr_cons (c : Char) (hay N : List Char) :
    strstr (c :: hay) N =
      if N.isPrefixOf (c :: hay) then some 0 else (strstr hay N).map (· + 1) := rfl

theorem strstr_stable (N x y : List Char) :
    ∀ pre : List Char, strstr (pre ++ (N ++ x)) N = some pre.length →
      strstr (pre ++ (N ++ y)) N = some pre.length := by
  intro pre
  induction pre with
  | nil =>
    intro _
    apply strstr_zero
    simp
  | cons c pre ih =>
    intro h
    have e1 : ∀ z : List Char,
        N.isPrefixOf (c :: (pre ++ (N ++ z))) = N.isPrefixOf (c :: (pre ++ N)) := by
      intro z
      have := isPrefixOf_append_of_length_le N (c :: (pre ++ N)) z
        (by simp only [List.length_cons, List.length_append]; omega)
      simpa only [List.cons_append, List.append_assoc] using this
    simp only [List.cons_append, List.length_cons] at h ⊢
    rw [strstr_cons] at h ⊢
    rw [e1 y, ← e1 x]
    by_cases hp : N.isPrefixOf (c :: (pre ++ (N ++ x))) = true
    · rw [if_pos hp] at h
      exact absurd (Option.some.inj h) (by omega)
    · rw [if_neg hp] at h ⊢
      cases hs : strstr (pre ++ (N ++ x)) N with
      | none => rw [hs] at h; exact absurd h (by simp)
      | some k =>
        rw [hs] at h
        have hk : k = pre.length := by
          simp only [Option.map_some', Option.some.injEq] at h
          omega
        subst hk
        rw [ih hs]
        rfl

theorem strstr_found (N b : List Char) :
    ∀ a : List Char, ∃ k, strstr (a ++ (N ++ b)) N = some k := by
  intro a
  induction a with
  | nil => exact ⟨0, strstr_zero _ _ (by simp)⟩
  | cons c a ih =>
    obtain ⟨k, hk⟩ := ih
    simp only [List.cons_append]
    rw [strstr_cons]
    by_cases hp : N.isPrefixOf (c :: (a ++ (N ++ b))) = true
    · exact ⟨0, by rw [if_pos hp]⟩
    · exact ⟨k + 1, by rw [if_neg hp, hk]; rfl⟩

theorem strrchr_absent (c : Char) : ∀ s : List Char, c ∉ s → strrchr s c = none := by
  intro s
  induction s with
  | nil => intro _; rfl
  | cons x s ih =>
    intro h
    simp only [List.mem_cons, not_or] at h
    simp only [strrchr, ih h.2]
    simp [Ne.symm h.1]

theorem strrchr_last (c : Char) (post : List Char) (h : c ∉ post) :
    ∀ a : List Char, strrchr (a ++ c :: post) c = some a.length := by
  intro a
  induction a with
  | nil => simp [strrchr, strrchr_absent c post h]
  | cons x a ih => simp [strrchr, ih]

theorem strchr_first (c : Char) (x : List Char) :
    ∀ a : List Char, c ∉ a → strchr (a ++ c :: x) c = some a.length := by
  intro a
  induction a with
  | nil => intro _; simp [strchr]
  | cons y a ih =>
    intro h
    simp only [List.mem_cons, not_or] at h
    simp [strchr, Ne.symm h.1, ih h.2]

theorem strchr_split (c : Char) :
    ∀ (r : List Char) (len : Nat), strchr r c = some len →
      c ∉ r.take len ∧ r = r.take len ++ c :: r.drop (len + 1) := by
  intro r
  induction r with
  | nil => intro len h; simp [strchr] at h
  | cons y r ih =>
    intro len h
    simp only [strchr] at h
    by_cases hy : y = c
    · simp [hy] at h
      subst h
      simp [hy]
    · simp only [hy, if_false] at h
      cases hs : strchr r c with
      | none => simp [hs] at h
      | some k =>
        simp [hs] at h
        subst h
        obtain ⟨h1, h2⟩ := ih k hs
        refine ⟨?_, ?_⟩
        · simp only [List.take_succ_cons, List.mem_cons, not_or]
          exact ⟨Ne.symm hy, h1⟩
        · simp only [List.take_succ_cons, List.drop_succ_cons, List.cons_append]
          rw [← h2]

/-! ## The scanning loop never runs out of the fuel it is given -/

theorem scan_entries_fuel :
    ∀ (f f' : Nat) (cur : List Char), cur.length < f → cur.length < f' →
      scan_entries f cur = scan_entries f' cur := by
  intro f
  induction f with
  | zero => intro f' cur h; omega
  | succ f ih =>
    intro f' cur h h'
    cases f' with
    | zero => omega
    | succ f' =>
      cases cur with
      | nil => rfl
      | cons c rest =>
        simp only [List.length_cons] at h h'
        simp only [scan_entries]
        by_cases h1 : c = ']'
        · rw [if_pos h1, if_pos h1]
        · rw [if_neg h1, if_neg h1]
          by_cases h2 : c = '"'
          · rw [if_pos h2, if_pos h2]
            cases hs : strchr rest '"' with
            | none => rfl
            | some len =>
              have hl : (rest.drop (len + 1)).length ≤ rest.length := by
                rw [List.length_drop]; omega
              have e := ih f' (rest.drop (len + 1)) (by omega) (by omega)
              simp only [e]
          · rw [if_neg h2, if_neg h2]
            exact ih f' rest (by omega) (by omega)

theorem scan_entries_total :
    ∀ (f : Nat) (cur : List Char), cur.length < f → ∃ es, scan_entries f cur = some es := by
  intro f
  induction f with
  | zero => intro cur h; omega
  | succ f ih =>
    intro cur h
    cases cur with
    | nil => exact ⟨[], rfl⟩
    | cons c rest =>
      simp only [List.length_cons] at h
      simp only [scan_entries]
      by_cases h1 : c = ']'
      · exact ⟨[], by rw [if_pos h1]⟩
      · rw [if_neg h1]
        by_cases h2 : c = '"'
        · rw [if_pos h2]
          cases hs : strchr rest '"' with
          | none => exact ⟨[], rfl⟩
          | some len =>
            have hl : (rest.drop (len + 1)).length ≤ rest.length := by
              rw [List.length_drop]; omega
            obtain ⟨es, he⟩ := ih (rest.drop (len + 1)) (by omega)
            by_cases h3 : len < 127
            · exact ⟨rest.take len :: es, by simp only [if_pos h3, he, Option.map_some']⟩
            · exact ⟨es, by simp only [if_neg h3, he]⟩
        · rw [if_neg h2]
          exact ih rest (by omega)

theorem scan_entries_eq (f : Nat) (cur : List Char) (h : cur.length < f) :
    scan_entries f cur = some (entries_of cur) := by
  obtain ⟨es, he⟩ := scan_entries_total (cur.length + 1) cur (by omega)
  rw [scan_entries_fuel f (cur.length + 1) cur h (by omega), he, entries_of, he]
  rfl

theorem entries_of_close (r : List Char) : entries_of (']' :: r) = [] := by
  simp [entries_of, scan_entries]

theorem entries_of_skip (c : Char) (r : List Char) (h1 : c ≠ ']') (h2 : c ≠ '"') :
    entries_of (c :: r) = entries_of r := by
  have e : scan_entries ((c :: r).length + 1) (c :: r) = some (entries_of r) := by
    simp only [List.length_cons, scan_entries, if_neg h1, if_neg h2]
    exact scan_entries_eq _ _ (by omega)
  rw [entries_of, e]
  rfl

theorem entries_of_quote (r : List Char) (len : Nat) (hs : strchr r '"' = some len)
    (hl : len < 127) :
    entries_of ('"' :: r) = r.take len :: entries_of (r.drop (len + 1)) := by
  have e : scan_entries (('"' :: r).length + 1) ('"' :: r)
      = some (r.take len :: entries_of (r.drop (len + 1))) := by
    have h1 : ¬ ('"' = ']') := by decide
    simp only [List.length_cons, scan_entries, if_neg h1, if_true, hs, if_pos hl]
    rw [scan_entries_eq _ _ (by rw [List.length_drop]; omega)]
    rfl
  rw [entries_of, e]
  rfl

theorem entries_of_entry (e r : List Char) (h : listable e) :
    entries_of ('"' :: (e ++ '"' :: r)) = e :: entries_of r := by
  have hs := strchr_first '"' r e h.1
  rw [entries_of_quote _ _ hs h.2]
  simp

/-! ## The loop of `handle_uninstall` writes the scanned names other than `repo_name` -/

theorem entry_line_eq (e : List Char) :
    entry_line e = '\n' :: ' ' :: ' ' :: ' ' :: ' ' :: '"' :: (e ++ ['"']) := rfl

theorem emit_entries_cons (b : Bool) (e : List Char) (es : List (List Char)) :
    emit_entries b (e :: es)
      = (if b then [] else [',']) ++ entry_line e ++ emit_entries false es := rfl

theorem uninstall_loop_eq (n : List Char) :
    ∀ (f : Nat) (cur w : List Char) (b : Bool),
      uninstall_loop n f cur w b =
        (scan_entries f cur).map fun es =>
          (w ++ emit_entries b (es.filter fun e => decide (n ≠ e)),
            b && (es.filter fun e => decide (n ≠ e)).isEmpty) := by
  intro f
  induction f with
  | zero => intro cur w b; rfl
  | succ f ih =>
    intro cur w b
    cases cur with
    | nil => simp [uninstall_loop, scan_entries, emit_entries]
    | cons c rest =>
      simp only [uninstall_loop, scan_entries]
      by_cases h1 : c = ']'
      · simp [h1, emit_entries]
      · rw [if_neg h1, if_neg h1]
        by_cases h2 : c = '"'
        · rw [if_pos h2, if_pos h2]
          cases hs : strchr rest '"' with
          | none => simp [emit_entries]
          | some len =>
            by_cases h3 : len < 127
            · simp only [if_pos h3]
              by_cases h4 : n ≠ rest.take len
              · rw [if_pos h4, ih]
                cases hr : scan_entries f (rest.drop (len + 1)) with
                | none => rfl
                | some es =>
                  have hf : (rest.take len :: es).filter (fun e => decide (n ≠ e))
                      = rest.take len :: es.filter (fun e => decide (n ≠ e)) :=
                    List.filter_cons_of_pos (by simpa using h4)
                  simp only [Option.map_some', hf, emit_entries_cons, List.isEmpty_cons,
                    Bool.and_false, Bool.false_and]
                  cases b <;> simp [entry_line]
              · rw [if_neg h4, ih]
                cases hr : scan_entries f (rest.drop (len + 1)) with
                | none => rfl
                | some es =>
                  have hf : (rest.take len :: es).filter (fun e => decide (n ≠ e))
                      = es.filter (fun e => decide (n ≠ e)) :=
                    List.filter_cons_of_neg (by simpa using h4)
                  simp only [Option.map_some', hf]
            · simp only [if_neg h3]
              exact ih _ _ _
        · rw [if_neg h2, if_neg h2]
          exact ih _ _ _

theorem entries_of_emit (tail : List Char) :
    ∀ (es : List (List Char)) (b : Bool), (∀ e ∈ es, listable e) →
      entries_of (emit_entries b es ++ tail) = es ++ entries_of tail := by
  intro es
  induction es with
  | nil => intro b _; rfl
  | cons e es ih =>
    intro b h
    have he := h e (List.mem_cons_self e es)
    have hes : ∀ x ∈ es, listable x := fun x hx => h x (List.mem_cons_of_mem e hx)
    have key : entries_of (entry_line e ++ (emit_entries false es ++ tail))
        = e :: (es ++ entries_of tail) := by
      rw [entry_line_eq]
      simp only [List.cons_append, List.append_assoc, List.nil_append]
      rw [entries_of_skip _ _ (by decide) (by decide), entries_of_skip _ _ (by decide) (by decide),
        entries_of_skip _ _ (by decide) (by decide), entries_of_skip _ _ (by decide) (by decide),
        entries_of_skip _ _ (by decide) (by decide), entries_of_entry e _ he, ih false hes]
    rw [emit_entries_cons]
    cases b
    · simp only [Bool.false_eq_true, if_false, List.append_assoc, List.cons_append,
        List.nil_append]
      rw [entries_of_skip _ _ (by decide) (by decide)]
      simpa only [List.cons_append, List.append_assoc] using key
    · simp only [if_true, List.nil_append, List.append_assoc]
      simpa only [List.cons_append, List.append_assoc] using key

theorem scan_entries_occur :
    ∀ (f : Nat) (cur : List Char) (es : List (List Char)), scan_entries f cur = some es →
      ∀ e ∈ es, listable e ∧ ∃ a b, cur = a ++ ('"' :: (e ++ '"' :: b)) := by
  intro f
  induction f with
  | zero => intro cur es h; simp [scan_entries] at h
  | succ f ih =>
    intro cur es h
    cases cur with
    | nil =>
      simp only [scan_entries, Option.some.injEq] at h
      subst h
      intro e he
      simp at he
    | cons c rest =>
      simp only [scan_entries] at h
      by_cases h1 : c = ']'
      · rw [if_pos h1, Option.some.injEq] at h
        subst h
        intro e he
        simp at he
      · rw [if_neg h1] at h
        by_cases h2 : c = '"'
        · rw [if_pos h2] at h
          cases hs : strchr rest '"' with
          | none =>
            rw [hs] at h
            simp only [Option.some.injEq] at h
            subst h
            intro e he
            simp at he
          | some len =>
            rw [hs] at h
            obtain ⟨hq, hsplit⟩ := strchr_split '"' rest len hs
            have rec_case : ∀ es', scan_entries f (rest.drop (len + 1)) = some es' →
                ∀ e ∈ es', listable e ∧ ∃ a b, c :: rest = a ++ ('"' :: (e ++ '"' :: b)) := by
              intro es' hes' e he
              obtain ⟨hl, a, b, hab⟩ := ih _ _ hes' e he
              refine ⟨hl, c :: (rest.take len ++ '"' :: a), b, ?_⟩
              rw [hab] at hsplit
              conv_lhs => rw [hsplit]
              simp
            by_cases h3 : len < 127
            · simp only [if_pos h3] at h
              cases hr : scan_entries f (rest.drop (len + 1)) with
              | none => rw [hr] at h; simp at h
              | some es' =>
                rw [hr] at h
                simp only [Option.map_some', Option.some.injEq] at h
                subst h
                intro e he
                rcases List.mem_cons.mp he with he | he
                · subst he
                  refine ⟨⟨hq, ?_⟩, [], rest.drop (len + 1), ?_⟩
                  · rw [List.length_take]; omega
                  · conv_lhs => rw [hsplit]
                    rw [h2]
                    rfl
                · exact rec_case es' hr e he
            · simp only [if_neg h3] at h
              exact rec_case es h
        · rw [if_neg h2] at h
          intro e he
          obtain ⟨hl, a, b, hab⟩ := ih _ _ h e he
          exact ⟨hl, c :: a, b, by rw [hab]; rfl⟩

theorem entries_of_occur (cur : List Char) :
    ∀ e ∈ entries_of cur, listable e ∧ ∃ a b, cur = a ++ ('"' :: (e ++ '"' :: b)) :=
  scan_entries_occur (cur.length + 1) cur (entries_of cur) (scan_entries_eq _ _ (by omega))

/-! ## What `handle_get` writes -/

theorem deps_header_eq : deps_header = "\"dependencies\": ".toList ++ ['['] := by decide

theorem deps_header_length : deps_header.length = 17 := by decide

theorem get_entry_text_length (b : Bool) (n : List Char) :
    (get_entry_text b n).length ≤ n.length + 11 := by
  cases b <;> simp [get_entry_text]

theorem handle_get_edit_written (pre body post n : List Char)
    (hH : strstr (pre ++ (deps_header ++ (body ++ ']' :: post))) deps_header = some pre.length)
    (hn : strstr (pre ++ (deps_header ++ (body ++ ']' :: post))) n = none)
    (hpost : ']' ∉ post) :
    handle_get_edit (pre ++ (deps_header ++ (body ++ ']' :: post))) n
      = .written (pre ++ (deps_header ++ (body ++
          (get_entry_text (decide (body.length ≤ 1)) n ++ ']' :: post)))) := by
  have hd : (pre ++ (deps_header ++ (body ++ ']' :: post))).drop pre.length
      = deps_header ++ (body ++ ']' :: post) := List.drop_left _ _
  have hr : strrchr (deps_header ++ (body ++ ']' :: post)) ']'
      = some (17 + body.length) := by
    have := strrchr_last ']' post hpost (deps_header ++ body)
    simpa only [List.append_assoc, List.length_append, deps_header_length] using this
  have hc : strchr (deps_header ++ (body ++ ']' :: post)) '[' = some 16 := by
    have := strchr_first '[' (body ++ ']' :: post) "\"dependencies\": ".toList (by decide)
    rw [deps_header_eq]
    simpa only [List.append_assoc, List.singleton_append] using this
  have htake : (pre ++ (deps_header ++ (body ++ ']' :: post))).take (pre.length + (17 + body.length))
      = pre ++ (deps_header ++ body) := by
    have := List.take_left (pre ++ (deps_header ++ body)) (']' :: post)
    simpa only [List.append_assoc, List.length_append, deps_header_length] using this
  have hdrop : (pre ++ (deps_header ++ (body ++ ']' :: post))).drop (pre.length + (17 + body.length))
      = ']' :: post := by
    have := List.drop_left (pre ++ (deps_header ++ body)) (']' :: post)
    simpa only [List.append_assoc, List.length_append, deps_header_length] using this
  have hb : (pre.length + (17 + body.length) == pre.length + 16 + 1
      || pre.length + (17 + body.length) == pre.length + 16 + 2) = decide (body.length ≤ 1) := by
    rw [Bool.eq_iff_iff]
    simp only [Bool.or_eq_true, beq_iff_eq, decide_eq_true_eq]
    omega
  simp only [handle_get_edit, hn, hH, hd, hr, hc, Option.map_some', htake, hdrop, hb]
  have hfit : snprintf ((pre ++ (deps_header ++ (body ++ ']' :: post))).length + n.length + 16
        - (pre ++ (deps_header ++ body)).length) (get_entry_text (decide (body.length ≤ 1)) n)
      = get_entry_text (decide (body.length ≤ 1)) n := by
    unfold snprintf
    apply List.take_of_length_le
    have := get_entry_text_length (decide (body.length ≤ 1)) n
    simp only [List.length_append, List.length_cons]
    omega
  rw [hfit]
  simp only [List.append_assoc]

/-! ## What `handle_uninstall` builds and what the scan reads -/

theorem drop_header (pre cur : List Char) :
    (pre ++ (deps_header ++ cur)).drop (pre.length + deps_header.length) = cur := by
  have := List.drop_left (pre ++ deps_header) cur
  simpa only [List.append_assoc, List.length_append] using this

theorem list_deps_eq (pre cur : List Char)
    (hH : strstr (pre ++ (deps_header ++ cur)) deps_header = some pre.length) :
    list_deps (pre ++ (deps_header ++ cur)) = some (entries_of cur) := by
  simp only [list_deps, hH, drop_header]
  exact scan_entries_eq _ _ (by omega)

theorem uninstall_rewrite_eq (pre cur n : List Char) :
    uninstall_rewrite (pre ++ (deps_header ++ cur)) n pre.length
      = some (own_layout pre ((entries_of cur).filter fun e => decide (n ≠ e))) := by
  simp only [uninstall_rewrite, drop_header, List.take_left, uninstall_loop_eq,
    scan_entries_eq cur.length.succ cur (by omega), Option.map_some', uninstall_close, own_layout,
    array_body, Bool.true_and]
  cases h : ((entries_of cur).filter fun e => decide (n ≠ e)).isEmpty <;> simp

theorem handle_uninstall_edit_built (pre cur n : List Char)
    (hH : strstr (pre ++ (deps_header ++ cur)) deps_header = some pre.length)
    (hs : strstr (pre ++ (deps_header ++ cur)) (snprintf 256 (['"'] ++ n ++ ['"'])) ≠ none) :
    handle_uninstall_edit (pre ++ (deps_header ++ cur)) n =
      some (if (own_layout pre ((entries_of cur).filter fun e => decide (n ≠ e))).length
            ≤ (pre ++ (deps_header ++ cur)).length
        then .written (own_layout pre ((entries_of cur).filter fun e => decide (n ≠ e)))
        else .overflow (own_layout pre ((entries_of cur).filter fun e => decide (n ≠ e)))) := by
  cases hk : strstr (pre ++ (deps_header ++ cur)) (snprintf 256 (['"'] ++ n ++ ['"'])) with
  | none => exact absurd hk hs
  | some k =>
    simp only [handle_uninstall_edit, hk, hH, uninstall_rewrite_eq, Option.map_some',
      Nat.add_le_add_iff_right]

theorem not_mem_entries_of_absent (pre cur n : List Char)
    (habsent : strstr (pre ++ (deps_header ++ cur)) n = none) : n ∉ entries_of cur := by
  intro hmem
  obtain ⟨_, a, b, hab⟩ := entries_of_occur cur n hmem
  obtain ⟨k, hk⟩ := strstr_found n ('"' :: b) (pre ++ (deps_header ++ (a ++ ['"'])))
  rw [hab] at habsent
  simp only [List.append_assoc, List.singleton_append] at hk
  rw [hk] at habsent
  exact absurd habsent (by simp)

theorem entries_of_get_entry (b : Bool) (n tail : List Char) (hn : listable n) :
    entries_of (get_entry_text b n ++ ']' :: tail) = [n] := by
  have key : entries_of ('\n' :: ' ' :: ' ' :: ' ' :: ' ' :: '"' ::
      (n ++ '"' :: '\n' :: ' ' :: ' ' :: ']' :: tail)) = [n] := by
    rw [entries_of_skip _ _ (by decide) (by decide), entries_of_skip _ _ (by decide) (by decide),
      entries_of_skip _ _ (by decide) (by decide), entries_of_skip _ _ (by decide) (by decide),
      entries_of_skip _ _ (by decide) (by decide), entries_of_entry n _ hn,
      entries_of_skip _ _ (by decide) (by decide), entries_of_skip _ _ (by decide) (by decide),
      entries_of_skip _ _ (by decide) (by decide), entries_of_close]
  cases b
  · have e : get_entry_text false n ++ ']' :: tail = ',' :: '\n' :: ' ' :: ' ' :: ' ' :: ' ' ::
        '"' :: (n ++ '"' :: '\n' :: ' ' :: ' ' :: ']' :: tail) := by
      simp [get_entry_text]
    rw [e, entries_of_skip _ _ (by decide) (by decide)]
    exact key
  · have e : get_entry_text true n ++ ']' :: tail = '\n' :: ' ' :: ' ' :: ' ' :: ' ' ::
        '"' :: (n ++ '"' :: '\n' :: ' ' :: ' ' :: ']' :: tail) := by
      simp [get_entry_text]
    rw [e]
    exact key

theorem array_body_eq (es : List (List Char)) :
    array_body es = emit_entries true es ++ (if es.isEmpty then [] else ['\n', ' ', ' ']) := rfl

theorem entries_of_array_body (es : List (List Char)) (tail : List Char)
    (hes : ∀ e ∈ es, listable e) (htail : entries_of tail = t) :
    entries_of (array_body es ++ tail) = es ++ t := by
  rw [array_body_eq, List.append_assoc, entries_of_emit _ es true hes]
  cases es.isEmpty
  · simp only [Bool.false_eq_true, if_false, List.cons_append, List.nil_append]
    rw [entries_of_skip _ _ (by decide) (by decide), entries_of_skip _ _ (by decide) (by decide),
      entries_of_skip _ _ (by decide) (by decide), htail]
  · simp only [if_true, List.nil_append, htail]

theorem own_layout_eq (before : List Char) (es : List (List Char)) :
    own_layout before es
      = before ++ (deps_header ++ (array_body es ++ ']' :: ['\n', '\x7d', '\n'])) := by
  simp only [own_layout, List.append_assoc]
  rfl

theorem search_str_eq (n : List Char) (hn : listable n) :
    snprintf 256 (['"'] ++ n ++ ['"']) = '"' :: (n ++ ['"']) := by
  unfold snprintf
  have := hn.2
  rw [List.take_of_length_le (by simp only [List.length_append, List.length_cons, List.length_nil]; omega)]
  rfl

theorem search_str_found (x n tail : List Char) (b : Bool) (hn : listable n) :
    strstr (x ++ (get_entry_text b n ++ tail)) (snprintf 256 (['"'] ++ n ++ ['"'])) ≠ none := by
  rw [search_str_eq n hn]
  have e : ∃ y, x ++ (get_entry_text b n ++ tail)
      = y ++ ('"' :: (n ++ ['"']) ++ ('\n' :: ' ' :: ' ' :: tail)) := by
    cases b
    · exact ⟨x ++ [',', '\n', ' ', ' ', ' ', ' '], by simp [get_entry_text]⟩
    · exact ⟨x ++ ['\n', ' ', ' ', ' ', ' '], by simp [get_entry_text]⟩
  obtain ⟨y, hy⟩ := e
  obtain ⟨k, hk⟩ := strstr_found ('"' :: (n ++ ['"'])) ('\n' :: ' ' :: ' ' :: tail) y
  rw [hy, hk]
  simp

/-! ## Scanning an array whose quotes pair up -/

theorem strchr_of_mem (c : Char) :
    ∀ s : List Char, c ∈ s → ∃ len, strchr s c = some len := by
  intro s
  induction s with
  | nil => intro h; simp at h
  | cons y s ih =>
    intro h
    by_cases hy : y = c
    · exact ⟨0, by simp [strchr, hy]⟩
    · rcases List.mem_cons.mp h with h | h
      · exact absurd h.symm hy
      · obtain ⟨len, hl⟩ := ih h
        exact ⟨len + 1, by simp [strchr, hy, hl]⟩

theorem entries_of_quote_long (r : List Char) (len : Nat) (hs : strchr r '"' = some len)
    (hl : ¬ len < 127) :
    entries_of ('"' :: r) = entries_of (r.drop (len + 1)) := by
  have e : scan_entries (('"' :: r).length + 1) ('"' :: r)
      = some (entries_of (r.drop (len + 1))) := by
    have h1 : ¬ ('"' = ']') := by decide
    simp only [List.length_cons, scan_entries, if_neg h1, if_true, hs, if_neg hl]
    exact scan_entries_eq _ _ (by rw [List.length_drop]; omega)
  rw [entries_of, e]
  rfl

theorem entries_of_append (rest : List Char) :
    ∀ (k : Nat) (body : List Char), body.length ≤ k → ']' ∉ body →
      body.count '"' % 2 = 0 →
      entries_of (body ++ rest) = entries_of body ++ entries_of rest := by
  intro k
  induction k with
  | zero =>
    intro body hk _ _
    have : body = [] := List.length_eq_zero.mp (by omega)
    subst this
    rfl
  | succ k ih =>
    intro body hk hb hq
    cases body with
    | nil => rfl
    | cons c b =>
      simp only [List.mem_cons, not_or] at hb
      simp only [List.length_cons] at hk
      have hc1 : c ≠ ']' := Ne.symm hb.1
      by_cases hc2 : c = '"'
      · subst hc2
        rw [List.count_cons_self] at hq
        have hmem : '"' ∈ b := List.count_pos_iff.mp (by omega)
        obtain ⟨len, hs⟩ := strchr_of_mem '"' b hmem
        obtain ⟨hq1, hsplit⟩ := strchr_split '"' b len hs
        have hs2 : strchr (b ++ rest) '"' = some len := by
          have := strchr_first '"' (b.drop (len + 1) ++ rest) (b.take len) hq1
          rw [List.length_take] at this
          have hlen : len < b.length := by
            have := congrArg List.length hsplit
            simp only [List.length_append, List.length_cons, List.length_take,
              List.length_drop] at this
            omega
          rw [Nat.min_eq_left (by omega)] at this
          rw [← this]
          conv_lhs => rw [hsplit]
          simp
        have hlen : len < b.length := by
          have := congrArg List.length hsplit
          simp only [List.length_append, List.length_cons, List.length_take,
            List.length_drop] at this
          omega
        have htake : (b ++ rest).take len = b.take len := by
          rw [List.take_append_of_le_length (by omega)]
        have hdrop : (b ++ rest).drop (len + 1) = b.drop (len + 1) ++ rest := by
          rw [List.drop_append_of_le_length (by omega)]
        have hcount : (b.drop (len + 1)).count '"' % 2 = 0 := by
          have := congrArg (List.count '"') hsplit
          rw [List.count_append, List.count_cons_self, List.count_eq_zero_of_not_mem hq1] at this
          omega
        have hno : ']' ∉ b.drop (len + 1) := fun h => hb.2 (List.mem_of_mem_drop h)
        have hrec := ih (b.drop (len + 1)) (by rw [List.length_drop]; omega) hno hcount
        rw [List.cons_append]
        by_cases h3 : len < 127
        · rw [entries_of_quote _ _ hs2 h3, entries_of_quote _ _ hs h3, htake, hdrop, hrec]
          rfl
        · rw [entries_of_quote_long _ _ hs2 h3, entries_of_quote_long _ _ hs h3, hdrop, hrec]
      · rw [List.count_cons_of_ne (Ne.symm hc2)] at hq
        rw [List.cons_append, entries_of_skip _ _ hc1 hc2, entries_of_skip _ _ hc1 hc2]
        exact ih b (by omega) hb.2 hq

/-! ## Further facts about the two edits -/

theorem handle_uninstall_edit_total (json_content repo_name : List Char) :
    ∃ edit, handle_uninstall_edit json_content repo_name = some edit := by
  cases h1 : strstr json_content (snprintf 256 (['"'] ++ repo_name ++ ['"'])) with
  | none => exact ⟨.not_listed, by simp only [handle_uninstall_edit, h1]⟩
  | some k =>
    cases h2 : strstr json_content deps_header with
    | none => exact ⟨.null_deps_start, by simp only [handle_uninstall_edit, h1, h2]⟩
    | some deps_start =>
      simp only [handle_uninstall_edit, h1, h2, uninstall_rewrite, uninstall_loop_eq]
      rw [scan_entries_eq _ _ (Nat.lt_succ_self _)]
      exact ⟨_, rfl⟩

theorem get_reports_listed_name (pre cur n : List Char) (hn : n ∈ entries_of cur) :
    handle_get_edit (pre ++ (deps_header ++ cur)) n = .already_dependency := by
  cases h : strstr (pre ++ (deps_header ++ cur)) n with
  | none => exact absurd hn (not_mem_entries_of_absent pre cur n h)
  | some k => simp only [handle_get_edit, h]

theorem uninstall_removes_name (pre cur n : List Char)
    (hH : strstr (pre ++ (deps_header ++ cur)) deps_header = some pre.length)
    (hn : n ∈ entries_of cur) :
    ∃ built, uninstall_rewrite (pre ++ (deps_header ++ cur)) n pre.length = some built ∧
      list_deps built = some ((entries_of cur).filter fun e => decide (n ≠ e)) ∧
      (built.length ≤ (pre ++ (deps_header ++ cur)).length →
        handle_uninstall_edit (pre ++ (deps_header ++ cur)) n = some (.written built)) := by
  refine ⟨_, uninstall_rewrite_eq pre cur n, ?_, ?_⟩
  · have hkept : ∀ e ∈ (entries_of cur).filter (fun e => decide (n ≠ e)), listable e :=
      fun e he => (entries_of_occur cur e (List.mem_of_mem_filter he)).1
    have hH2 := strstr_stable deps_header cur
      (array_body ((entries_of cur).filter fun e => decide (n ≠ e))
        ++ ']' :: ['\n', '\x7d', '\n']) pre hH
    rw [own_layout_eq, list_deps_eq pre _ hH2,
      entries_of_array_body _ _ hkept (entries_of_close _), List.append_nil]
  · intro hfit
    obtain ⟨hl, a, b, hab⟩ := entries_of_occur cur n hn
    have hfound : strstr (pre ++ (deps_header ++ cur)) (snprintf 256 (['"'] ++ n ++ ['"']))
        ≠ none := by
      rw [search_str_eq n hl]
      obtain ⟨k, hk⟩ := strstr_found ('"' :: (n ++ ['"'])) b (pre ++ (deps_header ++ a))
      have e : pre ++ (deps_header ++ cur)
          = pre ++ (deps_header ++ a) ++ ('"' :: (n ++ ['"']) ++ b) := by
        rw [hab]; simp
      rw [e, hk]
      simp
    rw [handle_uninstall_edit_built pre cur n hH hfound, if_pos hfit]

/-! ## The loop of `handle_install` counts every name it scans -/

theorem install_loop_count (clone_ok : List Char → List Char → Bool) :
    ∀ (f : Nat) (cur : List Char) (dirs : List (List Char)) (count : Nat)
      (fetched : List FetchState),
      cur.length < f →
      ∃ dirs' fetched', install_loop clone_ok f cur dirs count fetched
          = some (dirs', count + (entries_of cur).length, fetched') ∧
        fetched'.length = fetched.length + (entries_of cur).length := by
  intro f
  induction f with
  | zero => intro cur dirs count fetched h; omega
  | succ f ih =>
    intro cur dirs count fetched h
    cases cur with
    | nil => exact ⟨dirs, fetched, rfl, rfl⟩
    | cons c rest =>
      simp only [List.length_cons] at h
      simp only [install_loop]
      by_cases h1 : c = ']'
      · subst h1
        rw [if_pos rfl, entries_of_close]
        exact ⟨dirs, fetched, rfl, rfl⟩
      · rw [if_neg h1]
        by_cases h2 : c = '"'
        · subst h2
          rw [if_pos rfl]
          cases hs : strchr rest '"' with
          | none =>
            have e : entries_of ('"' :: rest) = [] := by
              simp [entries_of, scan_entries, hs]
            rw [e]
            exact ⟨dirs, fetched, rfl, rfl⟩
          | some len =>
            have hl : (rest.drop (len + 1)).length < f := by
              rw [List.length_drop]; omega
            by_cases h3 : len < 127
            · simp only [if_pos h3]
              obtain ⟨d, fs, h4, h5⟩ := ih (rest.drop (len + 1))
                (fetch_and_clean_repo clone_ok (rest.take len) dirs).2 (count + 1)
                (fetched ++ [(fetch_and_clean_repo clone_ok (rest.take len) dirs).1]) hl
              refine ⟨d, fs, ?_, ?_⟩
              · rw [h4, entries_of_quote rest len hs h3, List.length_cons]
                simp only [Option.some.injEq, Prod.mk.injEq, true_and, and_true]
                omega
              · rw [h5, entries_of_quote rest len hs h3]
                simp only [List.length_append, List.length_cons, List.length_nil]
                omega
            · simp only [if_neg h3]
              rw [entries_of_quote_long rest len hs h3]
              exact ih _ _ _ _ hl
        · rw [if_neg h2, entries_of_skip c rest h1 h2]
          exact ih _ _ _ _ (by omega)

theorem handle_install_count (clone_ok : List Char → List Char → Bool) (w : World)
    (json_content : List Char) (es : List (List Char)) (hm : w.manifest = some json_content)
    (hl : list_deps json_content = some es) :
    ∃ dirs fetched, handle_install clone_ok w
        = ({ w with dirs := dirs }, .complete es.length fetched) ∧
      fetched.length = es.length := by
  cases hs : strstr json_content deps_header with
  | none => simp [list_deps, hs] at hl
  | some deps_start =>
    simp only [list_deps, hs] at hl
    rw [scan_entries_eq _ _ (Nat.lt_succ_self _), Option.some.injEq] at hl
    obtain ⟨dirs, fetched, h1, h2⟩ := install_loop_count clone_ok _
      (json_content.drop (deps_start + deps_header.length)) w.dirs 0 [] (Nat.lt_succ_self _)
    refine ⟨dirs, fetched, ?_, ?_⟩
    · simp only [handle_install, hm, hs, h1, hl, Nat.zero_add]
    · rw [h2, hl]
      simp

/-! ## The claims -/

/-- Round trip on the program's own layout: for a package file made of any text, the
header, the listable entries one per line, then the closing bracket and brace, whose
first header is the one before the array, and a listable name that occurs nowhere in the
text, the dependency list read from the file is `es`, `get` writes a new text, and
`uninstall` of the same name on that text writes back exactly the original text. -/
theorem get_then_uninstall_restores (before : List Char) (es : List (List Char))
    (n : List Char)
    (hH : strstr (own_layout before es) deps_header = some before.length)
    (hes : ∀ e ∈ es, listable e) (hn : listable n)
    (habsent : strstr (own_layout before es) n = none) :
    list_deps (own_layout before es) = some es ∧
    ∃ w, handle_get_edit (own_layout before es) n = .written w ∧
      handle_uninstall_edit w n = some (.written (own_layout before es)) := by
  have hclose : entries_of (']' :: ['\n', '\x7d', '\n']) = [] := entries_of_close _
  have hread : entries_of (array_body es ++ ']' :: ['\n', '\x7d', '\n']) = es := by
    rw [entries_of_array_body es _ hes hclose, List.append_nil]
  rw [own_layout_eq] at hH habsent
  have hnot : n ∉ es := by
    have := not_mem_entries_of_absent before _ n habsent
    rwa [hread] at this
  refine ⟨?_, ?_⟩
  · rw [own_layout_eq, list_deps_eq before _ hH, hread]
  · refine ⟨_, by rw [own_layout_eq]; exact handle_get_edit_written before (array_body es) _ n hH habsent (by decide), ?_⟩
    have hH2 := strstr_stable deps_header _
      (array_body es ++ (get_entry_text (decide ((array_body es).length ≤ 1)) n
        ++ ']' :: ['\n', '\x7d', '\n'])) before hH
    have hfound := search_str_found (before ++ (deps_header ++ array_body es)) n
      (']' :: ['\n', '\x7d', '\n']) (decide ((array_body es).length ≤ 1)) hn
    simp only [List.append_assoc] at hfound
    rw [handle_uninstall_edit_built before _ n hH2 hfound]
    have hread2 : entries_of (array_body es ++ (get_entry_text
        (decide ((array_body es).length ≤ 1)) n ++ ']' :: ['\n', '\x7d', '\n'])) = es ++ [n] :=
      entries_of_array_body es _ hes (entries_of_get_entry _ n _ hn)
    have hkeep : (es ++ [n]).filter (fun e => decide (n ≠ e)) = es := by
      rw [List.filter_append]
      have h1 : es.filter (fun e => decide (n ≠ e)) = es := by
        rw [List.filter_eq_self]
        intro a ha
        simp only [ne_eq, decide_not, Bool.not_eq_true', decide_eq_false_iff_not]
        intro h
        exact hnot (h ▸ ha)
      rw [h1]
      simp
    rw [hread2, hkeep, if_pos]
    rw [own_layout_eq]
    simp only [List.length_append]
    omega

/-- C1, the failing input: on a package file whose `name` member follows the dependencies
array, `foo` is not in the (empty) dependency list, `get foo` writes the file with `foo`
added, and `uninstall foo` on that file does not give the original back: the `name`
member is gone from the text it writes. -/
theorem get_then_uninstall_drops_later_member :
    list_deps "\x7b\n  \"dependencies\": [],\n  \"name\": \"p\"\n\x7d\n".toList = some [] ∧
    handle_get_edit "\x7b\n  \"dependencies\": [],\n  \"name\": \"p\"\n\x7d\n".toList
        "foo".toList
      = .written
        "\x7b\n  \"dependencies\": [\n    \"foo\"\n  ],\n  \"name\": \"p\"\n\x7d\n".toList ∧
    handle_uninstall_edit
        "\x7b\n  \"dependencies\": [\n    \"foo\"\n  ],\n  \"name\": \"p\"\n\x7d\n".toList
        "foo".toList
      = some (.written "\x7b\n  \"dependencies\": []\n\x7d\n".toList) ∧
    strstr "\x7b\n  \"dependencies\": [],\n  \"name\": \"p\"\n\x7d\n".toList
        "\"name\"".toList ≠ none ∧
    strstr "\x7b\n  \"dependencies\": []\n\x7d\n".toList "\"name\"".toList = none := by
  decide

/-- C2, as amended: when the text has the header spelled as the program searches it, the
array's closing bracket is the only `]` after the header, the double quotes inside the
array pair up, and the listable name `n` occurs nowhere in the text, then `get n` writes
a text whose dependency list is the old list followed by `n`, with `n` in it once. -/
theorem get_appends_name (pre body post n : List Char)
    (hH : strstr (pre ++ (deps_header ++ (body ++ ']' :: post))) deps_header
      = some pre.length)
    (hbody : ']' ∉ body) (hpost : ']' ∉ post) (hquotes : body.count '"' % 2 = 0)
    (hn : listable n)
    (habsent : strstr (pre ++ (deps_header ++ (body ++ ']' :: post))) n = none) :
    ∃ es w, list_deps (pre ++ (deps_header ++ (body ++ ']' :: post))) = some es ∧
      handle_get_edit (pre ++ (deps_header ++ (body ++ ']' :: post))) n = .written w ∧
      list_deps w = some (es ++ [n]) ∧ (es ++ [n]).count n = 1 := by
  have hold : entries_of (body ++ ']' :: post) = entries_of body := by
    rw [entries_of_append _ body.length body (Nat.le_refl _) hbody hquotes, entries_of_close,
      List.append_nil]
  have hnot : n ∉ entries_of body := by
    have := not_mem_entries_of_absent pre _ n habsent
    rwa [hold] at this
  refine ⟨entries_of body, _, ?_, handle_get_edit_written pre body post n hH habsent hpost,
    ?_, ?_⟩
  · rw [list_deps_eq pre _ hH, hold]
  · have hH2 := strstr_stable deps_header _
      (body ++ (get_entry_text (decide (body.length ≤ 1)) n ++ ']' :: post)) pre hH
    rw [list_deps_eq pre _ hH2,
      entries_of_append _ body.length body (Nat.le_refl _) hbody hquotes,
      entries_of_get_entry _ n post hn]
  · rw [List.count_append, List.count_eq_zero_of_not_mem hnot, List.count_singleton_self]

/-- C2, witness of the amended claim: a one-line package file listing `a` and `b`, and
the name `foo`. -/
theorem get_appends_name_example :
    ∃ es w, list_deps ("\x7b\"name\": \"p\", ".toList ++ (deps_header
          ++ ("\"a\", \"b\"".toList ++ ']' :: "\x7d".toList))) = some es ∧
      handle_get_edit ("\x7b\"name\": \"p\", ".toList ++ (deps_header
          ++ ("\"a\", \"b\"".toList ++ ']' :: "\x7d".toList))) "foo".toList = .written w ∧
      list_deps w = some (es ++ ["foo".toList]) ∧ (es ++ ["foo".toList]).count "foo".toList = 1 :=
  get_appends_name "\x7b\"name\": \"p\", ".toList "\"a\", \"b\"".toList "\x7d".toList
    "foo".toList (by decide) (by decide) (by decide) (by decide) (by decide) (by decide)

/-- C2, counterexample: on the compact text the claim names, the header the program
searches for (with a blank after the colon) is absent, so `get foo` reports an invalid
format and writes nothing. -/
theorem get_rejects_compact_text :
    handle_get_edit "\x7b\"name\":\"p\",\"dependencies\":[]\x7d".toList "foo".toList
      = .invalid_format := by
  decide

/-- C3, the failing input: the claim's own example written on one line.  The list read
from the file is `foo`, `bar`, and the text `uninstall foo` builds, which lists `bar`
alone, is 48 characters long while the file is 44 characters long: it does not fit the
buffer allocated for it. -/
theorem uninstall_one_line_overflows :
    list_deps "\x7b\"name\": \"p\", \"dependencies\": [\"foo\",\"bar\"]\x7d".toList
      = some ["foo".toList, "bar".toList] ∧
    handle_uninstall_edit
        "\x7b\"name\": \"p\", \"dependencies\": [\"foo\",\"bar\"]\x7d".toList "foo".toList
      = some (.overflow
        "\x7b\"name\": \"p\", \"dependencies\": [\n    \"bar\"\n  ]\n\x7d\n".toList) := by
  decide

/-- C4, the failing input: `uninstall a` on a package file whose `name` member follows
the dependencies array writes a text without that member, so content outside the array
is not the same in the written document as in the document read. -/
theorem uninstall_drops_later_member :
    handle_uninstall_edit
        "\x7b\n  \"dependencies\": [\n    \"a\",\n    \"b\"\n  ],\n  \"name\": \"p\"\n\x7d\n".toList
        "a".toList
      = some (.written "\x7b\n  \"dependencies\": [\n    \"b\"\n  ]\n\x7d\n".toList) ∧
    strstr
        "\x7b\n  \"dependencies\": [\n    \"a\",\n    \"b\"\n  ],\n  \"name\": \"p\"\n\x7d\n".toList
        "\"name\": \"p\"".toList ≠ none ∧
    strstr "\x7b\n  \"dependencies\": [\n    \"b\"\n  ]\n\x7d\n".toList
        "\"name\": \"p\"".toList = none := by
  decide

/-- C5, the failing input: in the package file written by `init` the dependency list is
empty, yet `get name` reports that `name` is already a dependency (and so writes
nothing), because the text contains the key `name`. -/
theorem get_reports_member_key_as_dependency :
    list_deps package_content = some [] ∧
    handle_get_edit package_content "name".toList = .already_dependency ∧
    (handle_get (fun _ _ => true) "name".toList ⟨some package_content, none, []⟩).1.manifest
      = some package_content := by
  decide

/-- C6, the failing input: `name` is not in the (empty) dependency list of the package
file written by `init`, yet `uninstall name` finds the quoted key in the text and
rewrites the file instead of reporting that there is nothing to do.  On a package file
with a `license` member after the array the same command writes a text that has lost that
member. -/
theorem uninstall_rewrites_for_unlisted_name :
    list_deps package_content = some [] ∧
    handle_uninstall_edit package_content "name".toList = some (.written package_content) ∧
    list_deps
        "\x7b\n  \"name\": \"p\",\n  \"dependencies\": [],\n  \"license\": \"MIT\"\n\x7d\n".toList
      = some [] ∧
    handle_uninstall_edit
        "\x7b\n  \"name\": \"p\",\n  \"dependencies\": [],\n  \"license\": \"MIT\"\n\x7d\n".toList
        "name".toList
      = some (.written "\x7b\n  \"name\": \"p\",\n  \"dependencies\": []\n\x7d\n".toList) := by
  decide

/-- C7, the failing input: the package file lists `foo` and `bar`, the directory of `foo`
exists and every clone fails.  The fetches end `AlreadyLocal` and `FetchFailed`, and the
count that `install` reports is 2. -/
theorem install_counts_failed_fetch :
    (handle_install (fun _ _ => false)
        ⟨some (own_layout "\x7b\n  \"name\": \"p\",\n  ".toList ["foo".toList, "bar".toList]),
          none, ["umods".toList, "umods/foo".toList]⟩).2
      = .complete 2 [.AlreadyLocal, .FetchFailed] := by
  decide

/-- C9, the failing input: a one-line package file listing `a` and `b`.  The header is
found, `uninstall a` reaches the rewrite, and the text it builds is 46 characters long
while the text read is 41 characters long. -/
theorem uninstall_rewrite_exceeds_buffer :
    strstr "\x7b\"name\": \"p\", \"dependencies\": [\"a\", \"b\"]\x7d".toList deps_header
      = some 14 ∧
    uninstall_rewrite "\x7b\"name\": \"p\", \"dependencies\": [\"a\", \"b\"]\x7d".toList
        "a".toList 14
      = some "\x7b\"name\": \"p\", \"dependencies\": [\n    \"b\"\n  ]\n\x7d\n".toList ∧
    "\x7b\"name\": \"p\", \"dependencies\": [\n    \"b\"\n  ]\n\x7d\n".toList.length = 46 ∧
    "\x7b\"name\": \"p\", \"dependencies\": [\"a\", \"b\"]\x7d".toList.length = 41 ∧
    handle_uninstall_edit "\x7b\"name\": \"p\", \"dependencies\": [\"a\", \"b\"]\x7d".toList
        "a".toList
      = some (.overflow
        "\x7b\"name\": \"p\", \"dependencies\": [\n    \"b\"\n  ]\n\x7d\n".toList) := by
  decide

/-- C10, the failing inputs: two package files whose dependencies array holds no entry, in
which `get foo` still puts a comma in front of the entry it inserts.  In the first the
array holds a newline and two blanks; in the second a `tags` array follows, and the entry
goes before the last `]` of the text. -/
theorem get_inserts_comma_with_no_entry :
    list_deps "\x7b\n  \"name\": \"p\",\n  \"dependencies\": [\n  ]\n\x7d\n".toList = some [] ∧
    handle_get_edit "\x7b\n  \"name\": \"p\",\n  \"dependencies\": [\n  ]\n\x7d\n".toList
        "foo".toList
      = .written
        "\x7b\n  \"name\": \"p\",\n  \"dependencies\": [\n  ,\n    \"foo\"\n  ]\n\x7d\n".toList ∧
    list_deps "\x7b\n  \"dependencies\": [],\n  \"tags\": [\"x\"]\n\x7d\n".toList = some [] ∧
    handle_get_edit "\x7b\n  \"dependencies\": [],\n  \"tags\": [\"x\"]\n\x7d\n".toList
        "foo".toList
      = .written
        "\x7b\n  \"dependencies\": [],\n  \"tags\": [\"x\",\n    \"foo\"\n  ]\n\x7d\n".toList := by
  decide

end Uvm
